import Mathlib

/-!
Formal model of `src/main.rs` of the repository: a CLI tool that strips a
common leading string from file names.

Modelling conventions:
* Rust `String`/`str` values are byte lists (`ByteStr`); all the string
  operations the program uses (`starts_with`, `replacen`, `trim`, byte
  indexing) are byte-wise, so this is exact for valid UTF-8 data.
* `std::path::PathBuf` is modelled as the list of parsed components that
  `Path::components()` would yield (`FsPath`); `file_name`, `pop`, `push`
  and `set_file_name` mirror the documented `std::path` semantics
  (trailing separators ignored, `.` segments dropped except at the start
  of a path, `..` kept, pushing an absolute string replaces the path).
* Fallible operations return `Option`/`Except`; a Rust `unwrap` that can
  panic is modelled by propagating `none`.
* The ambient filesystem and stdin are an explicit environment (`Env`):
  the result of `read_dir`, the `try_exists` probe result attached to each
  explicitly listed file, the stream of `read_line` results (EOF gives an
  empty line, as `read_line` then returns `Ok(0)` with an empty buffer),
  and the result of each `fs::rename` call.
* `Char::is_whitespace` is modelled on the ASCII whitespace bytes, which
  covers every input the claims mention.
-/

deriving instance DecidableEq for Except

namespace PS

/-- A Rust string/str, as its UTF-8 bytes. -/
abbrev ByteStr := List Nat

/-- UTF-8 encoding of a single Unicode code point (used to build literals
and to model `String::push(char)`). -/
def encChar (c : Char) : ByteStr :=
  let n := c.toNat
  if n < 128 then [n]
  else if n < 2048 then [192 + n / 64, 128 + n % 64]
  else if n < 65536 then [224 + n / 4096, 128 + (n / 64) % 64, 128 + n % 64]
  else [240 + n / 262144, 128 + (n / 4096) % 64, 128 + (n / 64) % 64, 128 + n % 64]

/-- Byte list of a Lean string literal (UTF-8). -/
def b (s : String) : ByteStr :=
  s.data.foldr (fun c acc => encChar c ++ acc) []

/-- Rust `str::starts_with` on bytes: `isPfxOf p s` holds iff `p` is a
leading segment of `s`. -/
def isPfxOf : ByteStr → ByteStr → Bool
  | [], _ => true
  | _ :: _, [] => false
  | x :: xs, y :: ys => x = y && isPfxOf xs ys

/-- Rust `str::replacen(pat, to, 1)` restricted to its first-occurrence
behaviour, for a non-empty pattern: replace the leftmost occurrence of
`pat`, leave the rest of the string untouched. -/
def replaceFirst (pat rep : ByteStr) : ByteStr → ByteStr
  | [] => []
  | c :: rest =>
    if isPfxOf pat (c :: rest) then rep ++ (c :: rest).drop pat.length
    else c :: replaceFirst pat rep rest

/-- Rust `str::replacen(pat, to, 1)`: an empty pattern matches at index 0,
so the replacement is inserted in front; otherwise the leftmost occurrence
of `pat` is replaced by the replacement. -/
def replacen1 (s pat rep : ByteStr) : ByteStr :=
  if pat = [] then rep ++ s else replaceFirst pat rep s

/-- A parsed path component, as in `std::path::Component` (Windows-only
prefixes are not modelled). -/
inductive Component where
  | rootDir : Component
  | curDir : Component
  | parentDir : Component
  | normal : ByteStr → Component
deriving DecidableEq

/-- A `PathBuf`, as the component list `Path::components()` yields. -/
abbrev FsPath := List Component

/-- `Path::file_name`: the final component when it is a normal one. -/
def file_name (p : FsPath) : Option ByteStr :=
  match p.getLast? with
  | some (Component.normal s) => some s
  | _ => none

/-- `PathBuf::pop` / `Path::parent`: drop the final component; the empty
path and the bare root have no parent and are left unchanged. -/
def popPath (p : FsPath) : FsPath :=
  match p with
  | [] => []
  | [Component.rootDir] => [Component.rootDir]
  | _ => p.dropLast

/-- Split a byte string on `/` (byte 47) into raw segments. -/
def splitOnSlash : ByteStr → List ByteStr
  | [] => [[]]
  | c :: rest =>
    let r := splitOnSlash rest
    if c = 47 then [] :: r
    else
      match r with
      | h :: t => (c :: h) :: t
      | [] => [[c]]

/-- Parse one raw segment: empty segments vanish, `.` is `curDir`, `..` is
`parentDir`, anything else is a normal component. -/
def segToComp (seg : ByteStr) : Option Component :=
  if seg = [] then none
  else if seg = [46] then none
  else if seg = [46, 46] then some Component.parentDir
  else some (Component.normal seg)

/-- `PathBuf::push` with a string argument.  An absolute argument replaces
the whole path.  Otherwise the argument's components are appended; `.`
segments survive only at the very beginning of the resulting path (as
`Path::components()` normalises them away elsewhere). -/
def pushStr (p : FsPath) (s : ByteStr) : FsPath :=
  let comps := (splitOnSlash s).filterMap segToComp
  if s.head? = some 47 then
    Component.rootDir :: comps
  else if p = [] then
    if (splitOnSlash s).head? = some [46] then Component.curDir :: comps
    else comps
  else p ++ comps

/-- `PathBuf::set_file_name`: pop the final component when there is a
file name, then push the new name. -/
def set_file_name (p : FsPath) (s : ByteStr) : FsPath :=
  let base := if (file_name p).isSome then popPath p else p
  pushStr base s

/-- `NamedPath` from the source: a path paired with its cached base name. -/
structure NamedPath where
  pathbuf : FsPath
  name : ByteStr
deriving DecidableEq

/-- `NamedPath::from_pathbuf`: succeeds exactly when the path has a final
normal component, caching it as the name (`to_string_lossy` is the
identity on the byte level for the valid-UTF-8 names considered here). -/
def from_pathbuf (p : FsPath) : Option NamedPath :=
  (file_name p).map fun n => { pathbuf := p, name := n }

/-- An explicitly listed file together with the outcome of its
`try_exists` probe in the modelled filesystem. -/
structure FileSpec where
  path : FsPath
  exists_res : Except ByteStr Bool
deriving DecidableEq

/-- One `read_dir` entry: its path and whether the entry is a directory.
The source never inspects the entry type, so `is_dir` is carried by the
environment only. -/
structure DirEntry where
  path : FsPath
  is_dir : Bool
deriving DecidableEq

/-- The parsed command line (`Args` in the source; `pfx` is the manual
leading-string option, spelled `p` in the CLI). -/
structure Args where
  pfx : Option ByteStr
  source_directory : FsPath
  files : Option (List FileSpec)
  include_directories : Bool
  skip_confirmation : Bool
  replace : Option ByteStr
deriving DecidableEq

/-- Errors `get_named_paths` can return: a `read_dir` failure propagated
by `?`, or `NoFilesRemaining`. -/
inductive GetErr where
  | openErr : ByteStr → GetErr
  | noFiles : GetErr
deriving DecidableEq

/-- The explicit-file branch of `get_named_paths`: existing files whose
paths have a final component are kept, in order; every other case is
reported to stderr and skipped. -/
def resolve_files : List FileSpec → List NamedPath
  | [] => []
  | f :: rest =>
    match f.exists_res with
    | Except.ok true =>
      match from_pathbuf f.path with
      | some np => np :: resolve_files rest
      | none => resolve_files rest
    | Except.ok false => resolve_files rest
    | Except.error _ => resolve_files rest

/-- The directory branch of `get_named_paths`: erroring entries are
reported and skipped, the rest are converted with `from_pathbuf`.  The
source never consults the entry type or `args.include_directories` here. -/
def resolve_dir : List (Except ByteStr DirEntry) → List NamedPath
  | [] => []
  | Except.error _ :: rest => resolve_dir rest
  | Except.ok d :: rest =>
    match from_pathbuf d.path with
    | some np => np :: resolve_dir rest
    | none => resolve_dir rest

/-- `get_named_paths`: resolve candidates from the explicit list or from
the directory listing, then fail with `NoFilesRemaining` when the result
is empty (the source performs this emptiness check once, after both
branches). -/
def get_named_paths (args : Args) (rd : Except ByteStr (List (Except ByteStr DirEntry))) :
    Except GetErr (List NamedPath) :=
  match args.files with
  | some file_list =>
    let nps := resolve_files file_list
    if nps = [] then Except.error GetErr.noFiles else Except.ok nps
  | none =>
    match rd with
    | Except.error e => Except.error (GetErr.openErr e)
    | Except.ok entries =>
      let nps := resolve_dir entries
      if nps = [] then Except.error GetErr.noFiles else Except.ok nps

/-- `vet_named_paths`: keep the candidates whose name starts with the
given leading string; an empty remainder is `NoFilesRemaining`. -/
def vet_named_paths (p : ByteStr) (nps : List NamedPath) : Except Unit (List NamedPath) :=
  let vetted := nps.filter fun np => isPfxOf p np.name
  if vetted = [] then Except.error () else Except.ok vetted

/-- The short-circuiting `names.iter().all(|&n| *n.as_bytes().get(index).unwrap() == first)`
from `try_find_prefix`; `none` models the `unwrap` panic on an
out-of-bounds byte access. -/
def allEqAt (names : List ByteStr) (index : Nat) (first : Nat) : Option Bool :=
  match names with
  | [] => some true
  | n :: rest =>
    match n.get? index with
    | none => none
    | some v => if v = first then allEqAt rest index first else some false

/-- `String::push(first as char)` of `try_find_prefix`, on bytes: a byte
below 0x80 is appended as itself, a byte in 0x80..=0xFF is the code point
of the same value and is re-encoded as two UTF-8 bytes. -/
def encByte (v : Nat) : ByteStr :=
  if v < 128 then [v] else [192 + v / 64, 128 + v % 64]

/-- The `for index in 0..max_length` loop of `try_find_prefix`, with
`remaining` iterations left; `none` models a panicking `unwrap`. -/
def tfpLoop (names : List ByteStr) : Nat → Nat → ByteStr → Option ByteStr
  | _, 0, acc => some acc
  | index, remaining + 1, acc =>
    match names.head? with
    | none => none
    | some n0 =>
      match n0.get? index with
      | none => none
      | some first =>
        match allEqAt names index first with
        | none => none
        | some true => tfpLoop names (index + 1) remaining (acc ++ encByte first)
        | some false => some acc

/-- `names.iter().min_by(..len..).unwrap().len()`: the minimum name
length; `none` models the panic on an empty candidate list. -/
def minLen : List ByteStr → Option Nat
  | [] => none
  | n :: rest => some (rest.foldl (fun m x => min m x.length) n.length)

/-- `try_find_prefix` on the candidate base names.  The outer `Option`
models a panic; the inner one is the source's `Ok(None)` for an empty
accumulated result (the function's `Err` variant is never produced by the
source, so it is not modelled). -/
def try_find_pfx (names : List ByteStr) : Option (Option ByteStr) :=
  match minLen names with
  | none => none
  | some maxLen =>
    match tfpLoop names 0 maxLen [] with
    | none => none
    | some lcp => some (if lcp = [] then none else some lcp)

/-- One step of `get_new_named_paths`' loop body, shared with its spec:
the planned new name of a candidate. -/
def plan_new_name (name pfx replace_str : ByteStr) : ByteStr :=
  replacen1 name pfx replace_str

/-- The loop of `get_new_named_paths`: rebuild each candidate's path with
the planned name and reconstruct a `NamedPath`; `none` models the
`unwrap` panic when reconstruction fails. -/
def get_new_named_paths_go (pfx replace_str : ByteStr) : List NamedPath → Option (List NamedPath)
  | [] => some []
  | np :: rest =>
    match from_pathbuf (set_file_name np.pathbuf (plan_new_name np.name pfx replace_str)) with
    | none => none
    | some np2 =>
      match get_new_named_paths_go pfx replace_str rest with
      | none => none
      | some l => some (np2 :: l)

/-- `get_new_named_paths(named_paths, replace, prefix-string)`: an absent
replacement is the empty string. -/
def get_new_named_paths (named_paths : List NamedPath) (replace : Option ByteStr)
    (pfx : ByteStr) : Option (List NamedPath) :=
  get_new_named_paths_go pfx (replace.getD []) named_paths

/-- ASCII whitespace, modelling `char::is_whitespace` for the inputs the
claims involve. -/
def isWsByte (c : Nat) : Bool := c = 32 || c = 9 || c = 10 || c = 13

/-- Rust `str::trim` on bytes. -/
def trimStr (s : ByteStr) : ByteStr :=
  ((s.dropWhile isWsByte).reverse.dropWhile isWsByte).reverse

/-- Result of the confirmation loop. -/
inductive ConfirmResult where
  | proceed : ConfirmResult
  | abort : ConfirmResult
  | readErr : ConfirmResult
deriving DecidableEq

/-- The `loop` around the `[y/N]` prompt: each `read_line` result is
consumed in turn; `y`/`Y` breaks to the renaming phase, `n`/`N`/empty
returns, a read error returns, anything else re-prompts.  An exhausted
input stream is end-of-file, where `read_line` yields an empty line. -/
def confirmLoop : List (Except ByteStr ByteStr) → ConfirmResult
  | [] => ConfirmResult.abort
  | Except.error _ :: _ => ConfirmResult.readErr
  | Except.ok s :: rest =>
    let t := trimStr s
    if t = b "y" ∨ t = b "Y" then ConfirmResult.proceed
    else if t = b "n" ∨ t = b "N" ∨ t = [] then ConfirmResult.abort
    else confirmLoop rest

/-- Is an `fs::rename` result an error? -/
def isErrR (r : Except ByteStr Unit) : Bool :=
  match r with
  | Except.error _ => true
  | Except.ok _ => false

/-- The final rename loop: every pair is attempted in order; a failure
emits one diagnostic and the loop continues.  Returns the attempted
renames in order, the successful renames in order, and the number of
diagnostics emitted. -/
def execRenames (renameFn : FsPath → FsPath → Except ByteStr Unit) :
    List (NamedPath × NamedPath) → List (FsPath × FsPath) × List (FsPath × FsPath) × Nat
  | [] => ([], [], 0)
  | (o, n) :: rest =>
    let r := execRenames renameFn rest
    match renameFn o.pathbuf n.pathbuf with
    | Except.ok _ => ((o.pathbuf, n.pathbuf) :: r.1, (o.pathbuf, n.pathbuf) :: r.2.1, r.2.2)
    | Except.error _ => ((o.pathbuf, n.pathbuf) :: r.1, r.2.1, r.2.2 + 1)

/-- The parts of the execution environment `main` consumes: the result of
`read_dir(source_directory)`, the stream of `read_line` results for the
confirmation prompt, and the behaviour of `fs::rename`. -/
structure Env where
  read_dir : Except ByteStr (List (Except ByteStr DirEntry))
  stdin : List (Except ByteStr ByteStr)
  renameFn : FsPath → FsPath → Except ByteStr Unit

/-- How a modelled run of `main` ended. -/
inductive Outcome where
  | fatalResolve : Outcome
  | fatalVet : Outcome
  | fatalNoPfx : Outcome
  | fatalRead : Outcome
  | declined : Outcome
  | executed : Outcome
deriving DecidableEq

/-- Observable result of a completed (non-panicking) run of `main`.
`status` is the process exit status: `fn main()` returns `()` on every
path, which is exit status 0. -/
structure RunResult where
  status : Nat
  outcome : Outcome
  attempted : List (FsPath × FsPath)
  renamed : List (FsPath × FsPath)
deriving DecidableEq

/-- Both preview loops call `str::split_at` (panicking when the index
exceeds the string length); this guard models the in-bounds condition for
the old names (split at the leading string's length) and the new names
(split at the replacement's length, 0 when absent). -/
def previewOk (pfx : ByteStr) (replace : Option ByteStr) (olds news : List NamedPath) : Bool :=
  olds.all (fun np => pfx.length ≤ np.name.length) &&
  news.all (fun np => (replace.getD []).length ≤ np.name.length)

/-- The rename phase of `main`: zip old and new paths and run the rename
loop. -/
def runExec (env : Env) (olds news : List NamedPath) : RunResult :=
  let r := execRenames env.renameFn (olds.zip news)
  { status := 0, outcome := Outcome.executed, attempted := r.1, renamed := r.2.1 }

/-- `main` from the planning step onwards: build the plan (the planner's
`unwrap` may panic), preview (whose `split_at` may panic), then confirm
unless skipped, then execute.  `none` models a panic. -/
def mainAfterPfx (args : Args) (env : Env) (named_paths : List NamedPath) (p : ByteStr) :
    Option RunResult :=
  match get_new_named_paths named_paths args.replace p with
  | none => none
  | some new_named_paths =>
    if previewOk p args.replace named_paths new_named_paths then
      if args.skip_confirmation then
        some (runExec env named_paths new_named_paths)
      else
        match confirmLoop env.stdin with
        | ConfirmResult.readErr =>
          some { status := 0, outcome := Outcome.fatalRead, attempted := [], renamed := [] }
        | ConfirmResult.abort =>
          some { status := 0, outcome := Outcome.declined, attempted := [], renamed := [] }
        | ConfirmResult.proceed => some (runExec env named_paths new_named_paths)
    else none

/-- The whole of `main`: candidate resolution, then either vetting against
the supplied leading string or auto-detection, then `mainAfterPfx`.
Every early `return` of the source leaves `fn main()` normally, hence
with exit status 0.  `none` models a panic. -/
def mainRun (args : Args) (env : Env) : Option RunResult :=
  match get_named_paths args env.read_dir with
  | Except.error _ =>
    some { status := 0, outcome := Outcome.fatalResolve, attempted := [], renamed := [] }
  | Except.ok nps =>
    match args.pfx with
    | some p =>
      match vet_named_paths p nps with
      | Except.error _ =>
        some { status := 0, outcome := Outcome.fatalVet, attempted := [], renamed := [] }
      | Except.ok vetted => mainAfterPfx args env vetted p
    | none =>
      match try_find_pfx (nps.map NamedPath.name) with
      | none => none
      | some none =>
        some { status := 0, outcome := Outcome.fatalNoPfx, attempted := [], renamed := [] }
      | some (some p) => mainAfterPfx args env nps p

/-- Does a byte string avoid the path separator byte `/`? -/
def noSlash : ByteStr → Bool
  | [] => true
  | c :: rest => !(decide (c = 47)) && noSlash rest

/-- A planned name that is a plain single path component: non-empty, not
`.` or `..`, and containing no separator byte. -/
def isPlainName (s : ByteStr) : Bool :=
  !(decide (s = [])) && !(decide (s = [46])) && !(decide (s = [46, 46])) && noSlash s

/-- The paths offered to the resolver, per mode: the explicit list's
paths, or the paths of the listing's readable entries. -/
def okEntryPaths : List (Except ByteStr DirEntry) → List FsPath
  | [] => []
  | Except.error _ :: rest => okEntryPaths rest
  | Except.ok d :: rest => d.path :: okEntryPaths rest

/-- Input paths of a resolver invocation (explicit list or listing). -/
def inputPaths (args : Args) (rd : Except ByteStr (List (Except ByteStr DirEntry))) :
    List FsPath :=
  match args.files with
  | some fl => fl.map FileSpec.path
  | none =>
    match rd with
    | Except.error _ => []
    | Except.ok entries => okEntryPaths entries

/-- A concrete rename behaviour in which exactly the path `bb` fails
(say, because the target already exists); used as an environment for
concrete batches below. -/
def rfW : FsPath → FsPath → Except ByteStr Unit :=
  fun o _ => if o = [Component.normal (b "bb")] then Except.error (b "exists") else Except.ok ()

/-- A three-entry rename batch whose middle entry fails under `rfW`. -/
def pairsW : List (NamedPath × NamedPath) :=
  [({ pathbuf := [Component.normal (b "aa")], name := b "aa" },
    { pathbuf := [Component.normal (b "a2")], name := b "a2" }),
   ({ pathbuf := [Component.normal (b "bb")], name := b "bb" },
    { pathbuf := [Component.normal (b "b2")], name := b "b2" }),
   ({ pathbuf := [Component.normal (b "cc")], name := b "cc" },
    { pathbuf := [Component.normal (b "c2")], name := b "c2" })]

/-- A successfully reconstructed `NamedPath` carries exactly the path it
was built from. -/
theorem from_pathbuf_pathbuf {p : FsPath} {np : NamedPath}
    (h : from_pathbuf p = some np) : np.pathbuf = p := by
  cases hf : file_name p with
  | none => simp [from_pathbuf, hf] at h
  | some s =>
    unfold from_pathbuf at h
    rw [hf] at h
    simp only [Option.map_some'] at h
    injection h with h2
    rw [← h2]

/-- Paths of explicit-list candidates form a sublist of the listed paths. -/
theorem resolve_files_paths_sublist (fl : List FileSpec) :
    ((resolve_files fl).map NamedPath.pathbuf).Sublist (fl.map FileSpec.path) := by
  induction fl with
  | nil => simp [resolve_files]
  | cons f rest ih =>
    cases hfe : f.exists_res with
    | ok ex =>
      cases ex with
      | false =>
        simp only [resolve_files, hfe, List.map_cons]
        exact ih.cons _
      | true =>
        cases hfp : from_pathbuf f.path with
        | none =>
          simp only [resolve_files, hfe, hfp, List.map_cons]
          exact ih.cons _
        | some np =>
          simp only [resolve_files, hfe, hfp, List.map_cons, from_pathbuf_pathbuf hfp]
          exact ih.cons₂ _
    | error e =>
      simp only [resolve_files, hfe, List.map_cons]
      exact ih.cons _

/-- Paths of directory-scan candidates form a sublist of the readable
entry paths. -/
theorem resolve_dir_paths_sublist (entries : List (Except ByteStr DirEntry)) :
    ((resolve_dir entries).map NamedPath.pathbuf).Sublist (okEntryPaths entries) := by
  induction entries with
  | nil => simp [resolve_dir, okEntryPaths]
  | cons ent rest ih =>
    cases ent with
    | error e =>
      simp only [resolve_dir, okEntryPaths]
      exact ih
    | ok d =>
      cases hfp : from_pathbuf d.path with
      | none =>
        simp only [resolve_dir, okEntryPaths, hfp]
        exact ih.cons _
      | some np =>
        simp only [resolve_dir, okEntryPaths, hfp, List.map_cons, from_pathbuf_pathbuf hfp]
        exact ih.cons₂ _

/-- The running fold of `min_by` never exceeds its starting value. -/
theorem foldl_min_le_init (l : List ByteStr) :
    ∀ init : Nat, l.foldl (fun m x => min m x.length) init ≤ init := by
  induction l with
  | nil => intro init; simp
  | cons y t ih =>
    intro init
    calc t.foldl (fun m x => min m x.length) (min init y.length) ≤ min init y.length := ih _
      _ ≤ init := Nat.min_le_left _ _

/-- The running fold of `min_by` is a lower bound for every length in the
list. -/
theorem foldl_min_le_mem (l : List ByteStr) :
    ∀ init : Nat, ∀ n ∈ l, l.foldl (fun m x => min m x.length) init ≤ n.length := by
  induction l with
  | nil => intro init n hn; simp at hn
  | cons y t ih =>
    intro init n hn
    rcases List.mem_cons.mp hn with h1 | h1
    · subst h1
      calc t.foldl (fun m x => min m x.length) (min init n.length) ≤ min init n.length :=
            foldl_min_le_init t _
        _ ≤ n.length := Nat.min_le_right _ _
    · exact ih _ n h1

/-- `minLen` bounds every name's length from below. -/
theorem minLen_le {names : List ByteStr} {m : Nat} (h : minLen names = some m) :
    ∀ n ∈ names, m ≤ n.length := by
  cases names with
  | nil => simp [minLen] at h
  | cons x rest =>
    simp only [minLen, Option.some.injEq] at h
    intro n hn
    rcases List.mem_cons.mp hn with h1 | h1
    · subst h1
      rw [← h]
      exact foldl_min_le_init rest _
    · rw [← h]
      exact foldl_min_le_mem rest _ n h1

/-- The short-circuit byte comparison never panics while the index is in
bounds for every name. -/
theorem allEqAt_isSome {names : List ByteStr} {index : Nat} (first : Nat)
    (h : ∀ n ∈ names, index < n.length) : (allEqAt names index first).isSome := by
  induction names with
  | nil => simp [allEqAt]
  | cons n rest ih =>
    have hn : index < n.length := h n (List.mem_cons_self n rest)
    cases hg : n.get? index with
    | none =>
      have hle := List.get?_eq_none.mp hg
      omega
    | some v =>
      simp only [allEqAt, hg]
      by_cases hv : v = first
      · rw [if_pos hv]
        exact ih fun m hm => h m (List.mem_cons_of_mem _ hm)
      · rw [if_neg hv]
        rfl

/-- The byte-comparison loop never panics while its remaining iteration
count keeps every accessed index in bounds. -/
theorem tfpLoop_isSome (names : List ByteStr) (hne : names ≠ []) :
    ∀ remaining index acc, (∀ n ∈ names, index + remaining ≤ n.length) →
      (tfpLoop names index remaining acc).isSome := by
  intro remaining
  induction remaining with
  | zero => intro index acc _; simp [tfpLoop]
  | succ k ih =>
    intro index acc hlen
    cases names with
    | nil => exact absurd rfl hne
    | cons n0 rest =>
      have h0 : index < n0.length := by
        have := hlen n0 (List.mem_cons_self _ _)
        omega
      have hall : ∀ n ∈ n0 :: rest, index < n.length := by
        intro n hn
        have := hlen n hn
        omega
      cases hg : n0.get? index with
      | none =>
        have hle := List.get?_eq_none.mp hg
        omega
      | some first =>
        cases ha : allEqAt (n0 :: rest) index first with
        | none =>
          exfalso
          have hs := allEqAt_isSome first hall
          rw [ha] at hs
          simp at hs
        | some bv =>
          cases bv with
          | false => simp only [tfpLoop, List.head?_cons, hg, ha, Option.isSome_some]
          | true =>
            simp only [tfpLoop, List.head?_cons, hg, ha]
            exact ih (index + 1) (acc ++ encByte first)
              (by intro n hn; have := hlen n hn; omega)

/-- Splitting a separator-free byte string yields the string itself. -/
theorem splitOnSlash_no_slash {s : ByteStr} (h : noSlash s = true) :
    splitOnSlash s = [s] := by
  induction s with
  | nil => rfl
  | cons c rest ih =>
    have h1 : c ≠ 47 := by
      intro hc
      subst hc
      simp [noSlash] at h
    have h2 : noSlash rest = true := by
      cases hcs : noSlash rest with
      | false => rw [noSlash, hcs] at h; simp at h
      | true => rfl
    simp [splitOnSlash, ih h2, h1]

/-- Pushing a plain file-name string appends exactly one normal
component. -/
theorem pushStr_plain {s : ByteStr} (h : isPlainName s = true) (p : FsPath) :
    pushStr p s = p ++ [Component.normal s] := by
  simp only [isPlainName, Bool.and_eq_true, Bool.not_eq_true', decide_eq_false_iff_not] at h
  obtain ⟨⟨⟨hne, hdot⟩, hddot⟩, hns⟩ := h
  have hsplit : splitOnSlash s = [s] := splitOnSlash_no_slash hns
  have hseg : segToComp s = some (Component.normal s) := by
    simp [segToComp, hne, hdot, hddot]
  have hcomps : (splitOnSlash s).filterMap segToComp = [Component.normal s] := by
    rw [hsplit]
    simp [List.filterMap_cons, hseg]
  have hhead : ¬ s.head? = some 47 := by
    cases s with
    | nil => simp
    | cons c t =>
      have hc : c ≠ 47 := by
        intro hc
        subst hc
        simp [noSlash] at hns
      simpa using hc
  have hhead2 : ¬ (splitOnSlash s).head? = some [46] := by
    rw [hsplit]
    simpa using hdot
  simp only [pushStr, hcomps]
  rw [if_neg hhead]
  by_cases hp : p = []
  · subst hp
    rw [if_pos rfl, if_neg hhead2]
    simp
  · rw [if_neg hp]

/-- Rebuilding a path with a plain file name makes that name its final
component. -/
theorem file_name_set_plain {s : ByteStr} (h : isPlainName s = true) (p : FsPath) :
    file_name (set_file_name p s) = some s := by
  unfold set_file_name
  rw [pushStr_plain h]
  simp [file_name, List.getLast?_concat]

/-- The planner loop, under plain planned names, is the pointwise map. -/
theorem get_new_named_paths_go_spec (pfx replace_str : ByteStr) :
    ∀ nps : List NamedPath,
      (∀ np ∈ nps, isPlainName (plan_new_name np.name pfx replace_str) = true) →
      get_new_named_paths_go pfx replace_str nps =
        some (nps.map fun np =>
          { pathbuf := set_file_name np.pathbuf (plan_new_name np.name pfx replace_str)
            name := plan_new_name np.name pfx replace_str }) := by
  intro nps
  induction nps with
  | nil => intro _; rfl
  | cons np rest ih =>
    intro h
    have hhead := h np (List.mem_cons_self _ _)
    have hfp : from_pathbuf (set_file_name np.pathbuf (plan_new_name np.name pfx replace_str)) =
        some { pathbuf := set_file_name np.pathbuf (plan_new_name np.name pfx replace_str)
               name := plan_new_name np.name pfx replace_str } := by
      unfold from_pathbuf
      rw [file_name_set_plain hhead]
      rfl
    simp only [get_new_named_paths_go, hfp]
    rw [ih fun m hm => h m (List.mem_cons_of_mem _ hm)]
    simp

/-- A verified leading segment, re-glued to the tail it leaves, restores
the original byte string. -/
theorem isPfxOf_append_drop : ∀ {p n : ByteStr}, isPfxOf p n = true →
    p ++ n.drop p.length = n := by
  intro p
  induction p with
  | nil => intro n _; simp
  | cons a ps ih =>
    intro n h
    cases n with
    | nil => simp [isPfxOf] at h
    | cons c cs =>
      simp only [isPfxOf, Bool.and_eq_true, decide_eq_true_eq] at h
      obtain ⟨hac, hrest⟩ := h
      subst hac
      simp only [List.cons_append, List.length_cons, List.drop_succ_cons]
      rw [ih hrest]

/-- Structure of the rename loop's results: every pair is attempted in
order, the successes are the non-erroring pairs in order, and one
diagnostic is counted per erroring pair. -/
theorem execRenames_spec (renameFn : FsPath → FsPath → Except ByteStr Unit) :
    ∀ pairs : List (NamedPath × NamedPath),
      (execRenames renameFn pairs).1 = pairs.map (fun pr => (pr.1.pathbuf, pr.2.pathbuf)) ∧
      (execRenames renameFn pairs).2.1 =
        (pairs.filter fun pr => !(isErrR (renameFn pr.1.pathbuf pr.2.pathbuf))).map
          (fun pr => (pr.1.pathbuf, pr.2.pathbuf)) ∧
      (execRenames renameFn pairs).2.2 =
        (pairs.filter fun pr => isErrR (renameFn pr.1.pathbuf pr.2.pathbuf)).length := by
  intro pairs
  induction pairs with
  | nil => exact ⟨rfl, rfl, rfl⟩
  | cons pr rest ih =>
    obtain ⟨o, nn⟩ := pr
    obtain ⟨ih1, ih2, ih3⟩ := ih
    cases hr : renameFn o.pathbuf nn.pathbuf with
    | ok u =>
      have hie : isErrR (Except.ok u) = false := rfl
      refine ⟨?_, ?_, ?_⟩
      · simp only [execRenames, hr, List.map_cons, ih1]
      · simp [execRenames, hr, List.filter_cons, hie, ih2]
      · simp [execRenames, hr, List.filter_cons, hie, ih3]
    | error e =>
      have hie : isErrR (Except.error e : Except ByteStr Unit) = true := rfl
      refine ⟨?_, ?_, ?_⟩
      · simp only [execRenames, hr, List.map_cons, ih1]
      · simp [execRenames, hr, List.filter_cons, hie, ih2]
      · simp [execRenames, hr, List.filter_cons, hie, ih3]

/-- A declining first answer makes the confirmation loop abort. -/
theorem confirmLoop_abort_of_decline {s : ByteStr} (rest : List (Except ByteStr ByteStr))
    (h : trimStr s = b "n" ∨ trimStr s = b "N" ∨ trimStr s = []) :
    confirmLoop (Except.ok s :: rest) = ConfirmResult.abort := by
  have hny : ¬ (trimStr s = b "y" ∨ trimStr s = b "Y") := by
    rcases h with h | h | h <;> rw [h] <;> decide
  simp only [confirmLoop]
  rw [if_neg hny, if_pos h]

/-- An accepting first answer makes the confirmation loop proceed. -/
theorem confirmLoop_proceed_of_accept {s : ByteStr} (rest : List (Except ByteStr ByteStr))
    (h : trimStr s = b "y" ∨ trimStr s = b "Y") :
    confirmLoop (Except.ok s :: rest) = ConfirmResult.proceed := by
  simp only [confirmLoop]
  rw [if_pos h]

/-- An unrecognised first answer re-prompts: the loop continues on the
remaining input. -/
theorem confirmLoop_continue_of_other {s : ByteStr} (rest : List (Except ByteStr ByteStr))
    (hy : ¬ trimStr s = b "y") (hY : ¬ trimStr s = b "Y") (hn : ¬ trimStr s = b "n")
    (hN : ¬ trimStr s = b "N") (he : ¬ trimStr s = []) :
    confirmLoop (Except.ok s :: rest) = confirmLoop rest := by
  simp only [confirmLoop]
  rw [if_neg (by tauto), if_neg (by tauto)]

/-- When confirmation is active and the confirmation loop aborts, the part
of `main` after the plan is built can only end declined. -/
theorem mainAfterPfx_abort {args : Args} {env : Env} {nps : List NamedPath} {p : ByteStr}
    (hskip : args.skip_confirmation = false)
    (habort : confirmLoop env.stdin = ConfirmResult.abort) :
    ∀ res, mainAfterPfx args env nps p = some res →
      res = { status := 0, outcome := Outcome.declined, attempted := [], renamed := [] } := by
  intro res h
  unfold mainAfterPfx at h
  split at h
  · exact absurd h (by simp)
  · split at h
    · rw [hskip] at h
      simp only [Bool.false_eq_true, if_false] at h
      rw [habort] at h
      injection h with h2
      exact h2.symm
    · exact absurd h (by simp)

/-- Any completed part-run of `main` after the plan exits with status 0,
and only the executed outcome carries rename attempts. -/
theorem mainAfterPfx_status {args : Args} {env : Env} {nps : List NamedPath} {p : ByteStr} :
    ∀ res, mainAfterPfx args env nps p = some res →
      res.status = 0 ∧ (res.outcome ≠ Outcome.executed → res.attempted = [] ∧ res.renamed = []) := by
  intro res h
  unfold mainAfterPfx at h
  split at h
  · exact absurd h (by simp)
  · split at h
    · split at h
      · injection h with h2
        subst h2
        exact ⟨rfl, fun hne => absurd rfl hne⟩
      · split at h
        · injection h with h2
          subst h2
          exact ⟨rfl, fun _ => ⟨rfl, rfl⟩⟩
        · injection h with h2
          subst h2
          exact ⟨rfl, fun _ => ⟨rfl, rfl⟩⟩
        · injection h with h2
          subst h2
          exact ⟨rfl, fun hne => absurd rfl hne⟩
    · exact absurd h (by simp)

/-- When confirmation is active and the confirmation loop aborts, a
completed run of `main` never reaches Execute and attempts no rename. -/
theorem mainRun_abort_cases {args : Args} {env : Env}
    (hskip : args.skip_confirmation = false)
    (habort : confirmLoop env.stdin = ConfirmResult.abort) :
    ∀ res, mainRun args env = some res →
      res.outcome ≠ Outcome.executed ∧ res.attempted = [] ∧ res.renamed = [] := by
  intro res h
  unfold mainRun at h
  split at h
  · injection h with h2
    subst h2
    exact ⟨by decide, rfl, rfl⟩
  · split at h
    · split at h
      · injection h with h2
        subst h2
        exact ⟨by decide, rfl, rfl⟩
      · have h3 := mainAfterPfx_abort hskip habort res h
        subst h3
        exact ⟨by decide, rfl, rfl⟩
    · split at h
      · exact absurd h (by simp)
      · injection h with h2
        subst h2
        exact ⟨by decide, rfl, rfl⟩
      · have h3 := mainAfterPfx_abort hskip habort res h
        subst h3
        exact ⟨by decide, rfl, rfl⟩

/-- C1: the claim that directory-typed entries are excluded from the
candidate set unless `include_directories` is set fails on the code: the
flag is declared (help text: include directories to be stripped) but
never read, so a listing entry with `is_dir = true` is resolved into the
candidate set even though the flag is unset. -/
theorem c1_directories_included :
    get_named_paths
        { pfx := none, source_directory := [Component.curDir], files := none,
          include_directories := false, skip_confirmation := false, replace := none }
        (Except.ok [Except.ok { path := [Component.curDir, Component.normal (b "sub")],
                                is_dir := true }]) =
      Except.ok [{ pathbuf := [Component.curDir, Component.normal (b "sub")],
                   name := b "sub" }] := by
  decide

/-- C2: the claim that reconstructing a `NamedPath` from the planned path
always succeeds fails on the code: for a candidate whose whole name
equals the leading string (a bare relative path `data`, leading string
`data`, no replacement — the candidate does start with the leading
string), the planned name is empty, `set_file_name` with an empty string
leaves a path with no final component, and the planner's `unwrap`
panics (modelled as `none`). -/
theorem c2_plan_unwrap_panics :
    isPfxOf (b "data") (b "data") = true ∧
    get_new_named_paths [{ pathbuf := [Component.normal (b "data")], name := b "data" }]
        none (b "data") = none := by
  decide

/-- C3: the claim that the auto-detected leading string equals the
longest common prefix of the candidate names fails on the code: for the
names é1 and é2 (bytes [195,169,49] and [195,169,50]) the loop pushes
each common byte as a `char`, re-encoding every byte at or above 0x80
into two UTF-8 bytes, and returns [195,131,194,169] (the mojibake text)
— which is not even a leading segment of the names, while the byte-wise
longest common prefix is [195,169]. -/
theorem c3_lcp_mojibake :
    try_find_pfx [[195, 169, 49], [195, 169, 50]] = some (some [195, 131, 194, 169]) ∧
    isPfxOf [195, 131, 194, 169] [195, 169, 49] = false ∧
    [195, 131, 194, 169] ≠ [195, 169] := by
  decide

/-- C4 counterexample: a run that fails fatally (the single listed file
does not exist, so no candidates remain) still exits with status 0,
because `fn main()` returns `()` on this path; the claim requires a
non-zero exit status on every fatal error. -/
theorem c4_fatal_exit_zero_cx :
    mainRun
        { pfx := none, source_directory := [Component.curDir],
          files := some [{ path := [Component.normal (b "x")], exists_res := Except.ok false }],
          include_directories := false, skip_confirmation := false, replace := none }
        { read_dir := Except.ok [], stdin := [], renameFn := fun _ _ => Except.ok () } =
      some { status := 0, outcome := Outcome.fatalResolve, attempted := [], renamed := [] } := by
  decide

/-- C4 amended: every completed (non-panicking) run exits with status 0 —
completion of Execute, declined confirmation, and every fatal error
alike (each fatal error is an early plain `return` from `fn main()`) —
and any run that does not reach Execute attempts no rename. -/
theorem c4_status_always_zero (args : Args) (env : Env) (res : RunResult)
    (h : mainRun args env = some res) :
    res.status = 0 ∧
      (res.outcome ≠ Outcome.executed → res.attempted = [] ∧ res.renamed = []) := by
  unfold mainRun at h
  split at h
  · injection h with h2
    subst h2
    exact ⟨rfl, fun _ => ⟨rfl, rfl⟩⟩
  · split at h
    · split at h
      · injection h with h2
        subst h2
        exact ⟨rfl, fun _ => ⟨rfl, rfl⟩⟩
      · exact mainAfterPfx_status res h
    · split at h
      · exact absurd h (by simp)
      · injection h with h2
        subst h2
        exact ⟨rfl, fun _ => ⟨rfl, rfl⟩⟩
      · exact mainAfterPfx_status res h

/-- C4 witness: the amended theorem applied to a concrete fatal run (its
`read_dir` fails). -/
theorem c4_status_always_zero_witness :
    ({ status := 0, outcome := Outcome.fatalResolve, attempted := [],
       renamed := [] } : RunResult).status = 0 ∧
    (({ status := 0, outcome := Outcome.fatalResolve, attempted := [],
        renamed := [] } : RunResult).outcome ≠ Outcome.executed →
      ({ status := 0, outcome := Outcome.fatalResolve, attempted := [],
         renamed := [] } : RunResult).attempted = [] ∧
      ({ status := 0, outcome := Outcome.fatalResolve, attempted := [],
         renamed := [] } : RunResult).renamed = []) :=
  c4_status_always_zero _ _ _
    (by decide : mainRun
        { pfx := none, source_directory := [Component.curDir], files := none,
          include_directories := false, skip_confirmation := false, replace := none }
        { read_dir := Except.error (b "denied"), stdin := [],
          renameFn := fun _ _ => Except.ok () } =
      some { status := 0, outcome := Outcome.fatalResolve, attempted := [], renamed := [] })

/-- C5 counterexample: with replacement `x/y` (a legal `--replace`
argument containing a separator) the planned entry's base name is
re-derived from the rebuilt path and is `ya`, not the claimed
first-occurrence replacement result `x/ya`. -/
theorem c5_slash_replacement_cx :
    get_new_named_paths
        [{ pathbuf := [Component.normal (b "d"), Component.normal (b "pa")], name := b "pa" }]
        (some (b "x/y")) (b "p") =
      some [{ pathbuf := [Component.normal (b "d"), Component.normal (b "x"),
                          Component.normal (b "ya")],
              name := b "ya" }] ∧
    ¬ (b "ya" = plan_new_name (b "pa") (b "p") (b "x/y")) := by
  decide

/-- C5 amended: whenever every planned name (the old base name with the
first occurrence of the leading string replaced, even if the text recurs
later) is a plain single path component — non-empty, not dot or
dot-dot, separator-free — the plan is the pointwise image of the
candidate sequence: same length, same order, and each entry's new base
name is exactly the first-occurrence replacement result.  (The original
claim fails only when a planned name is empty, a dot form, or contains a
separator: the base name is then re-derived from the rebuilt path.) -/
theorem c5_plan_pointwise (nps : List NamedPath) (pfx : ByteStr) (rep : Option ByteStr)
    (h : ∀ np ∈ nps, isPlainName (plan_new_name np.name pfx (rep.getD [])) = true) :
    get_new_named_paths nps rep pfx =
      some (nps.map fun np =>
        { pathbuf := set_file_name np.pathbuf (plan_new_name np.name pfx (rep.getD []))
          name := plan_new_name np.name pfx (rep.getD []) }) := by
  unfold get_new_named_paths
  exact get_new_named_paths_go_spec pfx (rep.getD []) nps h

/-- C5 witness: the amended theorem applied to a one-candidate plan. -/
theorem c5_plan_pointwise_witness :
    get_new_named_paths [{ pathbuf := [Component.normal (b "pa")], name := b "pa" }]
        none (b "p") =
      some ([{ pathbuf := [Component.normal (b "pa")], name := b "pa" }].map
        fun np : NamedPath =>
          ({ pathbuf := set_file_name np.pathbuf
               (plan_new_name np.name (b "p") ((none : Option ByteStr).getD []))
             name := plan_new_name np.name (b "p")
               ((none : Option ByteStr).getD []) } : NamedPath)) :=
  c5_plan_pointwise _ _ _ (by decide)

/-- C6 counterexample: an explicit file list naming the same existing
path twice resolves successfully to two candidates with the same
underlying path — the resolver never deduplicates. -/
theorem c6_duplicate_candidates_cx :
    get_named_paths
        { pfx := none, source_directory := [Component.curDir],
          files := some [{ path := [Component.normal (b "a")], exists_res := Except.ok true },
                         { path := [Component.normal (b "a")], exists_res := Except.ok true }],
          include_directories := false, skip_confirmation := false, replace := none }
        (Except.ok []) =
      Except.ok [{ pathbuf := [Component.normal (b "a")], name := b "a" },
                 { pathbuf := [Component.normal (b "a")], name := b "a" }] ∧
    ¬ ([{ pathbuf := [Component.normal (b "a")], name := b "a" },
        { pathbuf := [Component.normal (b "a")], name := b "a" }].map
          NamedPath.pathbuf).Nodup := by
  decide

/-- C6 amended: every successful resolution whose input paths (the
explicit list's paths, or the readable listing entries' paths) are
pairwise distinct yields candidates unique by underlying path; only a
duplicated explicit file list breaks uniqueness, since the resolved
paths form a sublist of the input paths. -/
theorem c6_nodup_of_input_nodup (args : Args)
    (rd : Except ByteStr (List (Except ByteStr DirEntry))) (res : List NamedPath)
    (hres : get_named_paths args rd = Except.ok res)
    (hin : (inputPaths args rd).Nodup) :
    (res.map NamedPath.pathbuf).Nodup := by
  cases hf : args.files with
  | some fl =>
    simp only [get_named_paths, hf] at hres
    by_cases he : resolve_files fl = []
    · rw [if_pos he] at hres
      exact absurd hres (by simp)
    · rw [if_neg he] at hres
      injection hres with h2
      subst h2
      have hsub := resolve_files_paths_sublist fl
      have hin2 : (fl.map FileSpec.path).Nodup := by
        simpa [inputPaths, hf] using hin
      exact hin2.sublist hsub
  | none =>
    cases hrd : rd with
    | error e => simp [get_named_paths, hf, hrd] at hres
    | ok entries =>
      simp only [get_named_paths, hf, hrd] at hres
      by_cases he : resolve_dir entries = []
      · rw [if_pos he] at hres
        exact absurd hres (by simp)
      · rw [if_neg he] at hres
        injection hres with h2
        subst h2
        have hsub := resolve_dir_paths_sublist entries
        have hin2 : (okEntryPaths entries).Nodup := by
          simpa [inputPaths, hf, hrd] using hin
        exact hin2.sublist hsub

/-- C6 witness: the amended theorem applied to a duplicate-free explicit
list. -/
theorem c6_nodup_of_input_nodup_witness :
    ([{ pathbuf := [Component.normal (b "a")], name := b "a" },
      { pathbuf := [Component.normal (b "c")], name := b "c" }].map
        NamedPath.pathbuf).Nodup :=
  c6_nodup_of_input_nodup
    { pfx := none, source_directory := [Component.curDir],
      files := some [{ path := [Component.normal (b "a")], exists_res := Except.ok true },
                     { path := [Component.normal (b "c")], exists_res := Except.ok true }],
      include_directories := false, skip_confirmation := false, replace := none }
    (Except.ok []) _ (by decide) (by decide)

/-- C7: with confirmation active, answering the prompt with `n`, `N`, or
a whitespace-only line makes every completed run end without reaching
Execute and with no rename attempted (the filesystem untouched);
answering `y` or `Y` makes the confirmation loop proceed to Execute; any
other answer makes the loop consume the answer and re-prompt on the
remaining input, mutating nothing. -/
theorem c7_confirm_semantics (args : Args) (env : Env) (r : ByteStr)
    (rest : List (Except ByteStr ByteStr))
    (hskip : args.skip_confirmation = false)
    (hstdin : env.stdin = Except.ok r :: rest) :
    ((trimStr r = b "n" ∨ trimStr r = b "N" ∨ trimStr r = []) →
      ∀ res, mainRun args env = some res →
        res.outcome ≠ Outcome.executed ∧ res.attempted = [] ∧ res.renamed = []) ∧
    ((trimStr r = b "y" ∨ trimStr r = b "Y") →
      confirmLoop env.stdin = ConfirmResult.proceed) ∧
    ((¬ trimStr r = b "y") → (¬ trimStr r = b "Y") → (¬ trimStr r = b "n") →
      (¬ trimStr r = b "N") → (¬ trimStr r = []) →
      confirmLoop env.stdin = confirmLoop rest) := by
  refine ⟨?_, ?_, ?_⟩
  · intro hdec res h
    exact mainRun_abort_cases hskip
      (by rw [hstdin]; exact confirmLoop_abort_of_decline rest hdec) res h
  · intro hacc
    rw [hstdin]
    exact confirmLoop_proceed_of_accept rest hacc
  · intro h1 h2 h3 h4 h5
    rw [hstdin]
    exact confirmLoop_continue_of_other rest h1 h2 h3 h4 h5

/-- C7 witness: the declining branch of the theorem applied to a
concrete run answering `n`. -/
theorem c7_confirm_semantics_witness :
    ({ status := 0, outcome := Outcome.declined, attempted := [],
       renamed := [] } : RunResult).outcome ≠ Outcome.executed ∧
    ({ status := 0, outcome := Outcome.declined, attempted := [],
       renamed := [] } : RunResult).attempted = [] ∧
    ({ status := 0, outcome := Outcome.declined, attempted := [],
       renamed := [] } : RunResult).renamed = [] :=
  (c7_confirm_semantics
      { pfx := some (b "p"), source_directory := [Component.curDir],
        files := some [{ path := [Component.normal (b "pa")], exists_res := Except.ok true }],
        include_directories := false, skip_confirmation := false, replace := none }
      { read_dir := Except.ok [], stdin := [Except.ok (b "n")],
        renameFn := fun _ _ => Except.ok () }
      (b "n") [] rfl rfl).1 (by decide) _ (by decide)

/-- C8: when exactly one rename of a batch fails, every entry of the
batch is still attempted in its original order, exactly one diagnostic
is counted, and the successful renames are exactly the non-failing
entries in order — prior successes are never rolled back. -/
theorem c8_batch_tolerance (renameFn : FsPath → FsPath → Except ByteStr Unit)
    (pairs : List (NamedPath × NamedPath))
    (h : (pairs.filter fun pr => isErrR (renameFn pr.1.pathbuf pr.2.pathbuf)).length = 1) :
    (execRenames renameFn pairs).1 = pairs.map (fun pr => (pr.1.pathbuf, pr.2.pathbuf)) ∧
    (execRenames renameFn pairs).2.2 = 1 ∧
    (execRenames renameFn pairs).2.1 =
      (pairs.filter fun pr => !(isErrR (renameFn pr.1.pathbuf pr.2.pathbuf))).map
        (fun pr => (pr.1.pathbuf, pr.2.pathbuf)) := by
  obtain ⟨h1, h2, h3⟩ := execRenames_spec renameFn pairs
  exact ⟨h1, by rw [h3]; exact h, h2⟩

/-- C8 witness: the theorem applied to a concrete three-entry batch whose
middle rename fails. -/
theorem c8_batch_tolerance_witness :
    (pairsW.filter fun pr => isErrR (rfW pr.1.pathbuf pr.2.pathbuf)).length = 1 ∧
    ((execRenames rfW pairsW).1 = pairsW.map (fun pr => (pr.1.pathbuf, pr.2.pathbuf)) ∧
     (execRenames rfW pairsW).2.2 = 1 ∧
     (execRenames rfW pairsW).2.1 =
       (pairsW.filter fun pr => !(isErrR (rfW pr.1.pathbuf pr.2.pathbuf))).map
         (fun pr => (pr.1.pathbuf, pr.2.pathbuf))) :=
  ⟨by decide, c8_batch_tolerance rfW pairsW (by decide)⟩

/-- C9: for a name starting with the leading string, planning with the
empty replacement (stripping) and then planning the result with the
empty leading string and the original one as replacement (re-inserting
at position 0) restores the original name; `plan_new_name` is exactly
the planner's per-candidate name computation. -/
theorem c9_round_trip (n p : ByteStr) (h : isPfxOf p n = true) :
    plan_new_name (plan_new_name n p []) [] p = n := by
  simp only [plan_new_name]
  have h2 : ∀ m : ByteStr, replacen1 m [] p = p ++ m := by
    intro m
    simp [replacen1]
  rw [h2]
  by_cases hp : p = []
  · subst hp
    simp [replacen1]
  · cases n with
    | nil =>
      cases p with
      | nil => exact absurd rfl hp
      | cons a ps => simp [isPfxOf] at h
    | cons c cs =>
      have h3 : replacen1 (c :: cs) p [] = (c :: cs).drop p.length := by
        simp only [replacen1, if_neg hp, replaceFirst, if_pos h]
        simp
      rw [h3]
      exact isPfxOf_append_drop h

/-- C9 witness: the round trip on a concrete name. -/
theorem c9_round_trip_witness :
    isPfxOf (b "p") (b "pa") = true ∧
    plan_new_name (plan_new_name (b "pa") (b "p") []) [] (b "p") = b "pa" :=
  ⟨by decide, c9_round_trip (b "pa") (b "p") (by decide)⟩

/-- C10: on every non-empty candidate name list, auto-detection is total
and never panics: the minimum-length computation is defined and every
unchecked byte access of the comparison loop is in bounds, because the
loop bound is the minimum name length. -/
theorem c10_lcp_total (names : List ByteStr) (hne : names ≠ []) :
    (try_find_pfx names).isSome = true := by
  cases hm : minLen names with
  | none =>
    cases names with
    | nil => exact absurd rfl hne
    | cons x rest => simp [minLen] at hm
  | some maxLen =>
    have hloop := tfpLoop_isSome names hne maxLen 0 []
      (by intro n hn; have := minLen_le hm n hn; omega)
    simp only [try_find_pfx, hm]
    cases hl : tfpLoop names 0 maxLen [] with
    | none =>
      rw [hl] at hloop
      simp at hloop
    | some lcp =>
      simp only [hl]
      simp

/-- C10 witness: totality on a concrete one-name list. -/
theorem c10_lcp_total_witness :
    ([[97]] : List ByteStr) ≠ [] ∧ (try_find_pfx [[97]]).isSome = true :=
  ⟨by decide, c10_lcp_total [[97]] (by decide)⟩

end PS
